import Mathlib

/-!
Verification of the SnarkPack-style Groth16 aggregation library
(`fiamma-chain/Groth16Agg`).

This file gives a shallow embedding of the parts of the source relevant to
the structural claims: the commitment keys and pair commitments
(`src/commitment.rs`), the inner-product primitives (`src/ip.rs`), and the
aggregate-proof data model with its manual byte serialization and the
`parsing_check` validator (`src/proof.rs`).

Machine integers are modelled as `Nat` (with explicit bounds where widths
matter: `nproofs` is a `u32`).  Byte streams are `List Nat`.  Fallible Rust
functions returning `Result` are modelled with `Except Error` resp.
`Option`; a Rust panic (a failed `assert_eq!` or an out-of-bounds index) is
modelled as `none`.  The element types of the pairing curve (target field,
`G1Affine`, `G2Affine`) are kept abstract; their arkworks canonical
serialization — an external library from the repository's point of view —
is abstracted as a `Codec` whose correctness (`Codec.Lawful`) is a stated
hypothesis, discharged concretely in the witnesses.

The Rust sources compute `log_proofs` as `(nproofs as f32).log2().ceil()`.
`log_proofs` models it by the exact `⌈log2 ·⌉` (a fuel-based structural
recursion proved equal to `Nat.clog 2`), which is what the `f32` pipeline
computes for every `nproofs ≤ MAX_SRS_SIZE` — in particular on all powers
of two — under a round-to-nearest `log2f`.  On larger `u32` values the two
diverge (already the `as f32` cast rounds `2^24 + 1` to `2^24`), so the
theorems about serializing malformed proofs are stated within that
agreement range, and `as_f32` / `log_proofs_f32` model the determined part
of the `f32` pipeline to exhibit the divergence concretely.
-/

namespace Groth16Agg

/-- Modelled from the spec (§6, §7): the `Error` enum of the crate root
(`lib.rs` is not among the provided sources; its variants are those used by
`src/commitment.rs`, `src/ip.rs` and `src/proof.rs` and listed in the
spec's error-kind table). -/
inductive Error where
  | invalidKeyLength
  | invalidIPVectorLength
  | invalidPairing
  | invalidProof (reason : String)
  | invalidSRS
  | serialization
deriving DecidableEq

instance exceptDecEq {ε α : Type} [DecidableEq ε] [DecidableEq α] :
    DecidableEq (Except ε α) := fun x y =>
  match x, y with
  | .error e1, .error e2 => decidable_of_iff (e1 = e2) (by simp)
  | .error _, .ok _ => isFalse (by simp)
  | .ok _, .error _ => isFalse (by simp)
  | .ok a1, .ok a2 => decidable_of_iff (a1 = a2) (by simp)

/-- Modelled from the spec (§6): `srs::MAX_SRS_SIZE` (the `srs` module is
not among the provided sources; the spec fixes the bound as `2^20`). -/
def MAX_SRS_SIZE : Nat := 2 ^ 20

/-- Fuel-based ceiling base-2 logarithm: `logProofsAux fuel n = ⌈log2 n⌉`
whenever `n ≤ fuel`. -/
def logProofsAux : Nat → Nat → Nat
  | 0, _ => 0
  | fuel + 1, n => if n ≤ 1 then 0 else logProofsAux fuel ((n + 1) / 2) + 1

/-- `GipaProof::log_proofs` (src/proof.rs:130-132): the per-level vector
count, computed in Rust as `(nproofs as f32).log2().ceil() as usize` and
modelled as the exact `⌈log2 nproofs⌉`.  The two agree for every
`nproofs ≤ MAX_SRS_SIZE` (round-to-nearest `log2f`) and on every power of
two, but not on all of `u32` — see `as_f32` and `log_proofs_f32` below
for the faithful model of the `f32` pipeline where they differ. -/
def log_proofs (nproofs : Nat) : Nat := logProofsAux nproofs nproofs

/-- Fuel-based power-of-two test (`u32::is_power_of_two` in Rust). -/
def isPowTwoAux : Nat → Nat → Bool
  | 0, n => n == 1
  | fuel + 1, n =>
    if n ≤ 1 then n == 1 else decide (n % 2 = 0) && isPowTwoAux fuel (n / 2)

/-- `u32::is_power_of_two`, used by `parsing_check` (src/proof.rs:52). -/
def is_power_of_two (n : Nat) : Bool := isPowTwoAux n n

/-! ### Byte-stream codecs

A `Codec α` abstracts the arkworks `CanonicalSerialize`/
`CanonicalDeserialize` implementation of an element type `α` in a fixed
mode (`Compress::Yes`, `Validate::Yes`): `enc` writes the bytes of a value;
`dec` reads a value off the front of a stream and returns the remaining
bytes, or `none` on a malformed prefix.  `Codec.Lawful` is the round-trip
contract the arkworks encodings satisfy. -/

/-- An abstract element serializer (see the section comment). -/
structure Codec (α : Type) where
  enc : α → List Nat
  dec : List Nat → Option (α × List Nat)

/-- A codec is lawful when decoding an encoding consumes exactly the
encoded bytes and returns the encoded value. -/
def Codec.Lawful {α : Type} (c : Codec α) : Prop :=
  ∀ (a : α) (rest : List Nat), c.dec (c.enc a ++ rest) = some (a, rest)

/-- Serializing a pair writes the first component then the second
(arkworks tuple serialization). -/
def Codec.pair {α β : Type} (cα : Codec α) (cβ : Codec β) : Codec (α × β) where
  enc p := cα.enc p.1 ++ cβ.enc p.2
  dec s :=
    match cα.dec s with
    | none => none
    | some (a, s1) =>
      match cβ.dec s1 with
      | none => none
      | some (b, s2) => some ((a, b), s2)

/-- Encode a list elementwise (no length prefix; the GIPA byte layout
derives the count from `nproofs`). -/
def encList {α : Type} (c : Codec α) (l : List α) : List Nat :=
  (l.map c.enc).flatten

/-- Decode exactly `n` consecutive elements off the front of a stream. -/
def decCount {α : Type} (c : Codec α) : Nat → List Nat → Option (List α × List Nat)
  | 0, s => some ([], s)
  | n + 1, s =>
    match c.dec s with
    | none => none
    | some (a, s1) =>
      match decCount c n s1 with
      | none => none
      | some (as_, s2) => some (a :: as_, s2)

/-- `u32` canonical serialization: four little-endian bytes. -/
def u32enc (n : Nat) : List Nat :=
  [n % 256, n / 256 % 256, n / 65536 % 256, n / 16777216 % 256]

/-- `u32` canonical deserialization: four little-endian bytes. -/
def u32dec : List Nat → Option (Nat × List Nat)
  | b0 :: b1 :: b2 :: b3 :: s => some (b0 + 256 * b1 + 65536 * b2 + 16777216 * b3, s)
  | _ => none

/-! ### Data model (src/commitment.rs, src/proof.rs) -/

/-- `Key<G>` (src/commitment.rs:42-47): a commitment key, two vectors of
points with exponents `a` resp. `b`.  The V-key instantiates `G` with
`G2Affine`, the W-key with `G1Affine`. -/
structure Key (G : Type) where
  a : List G
  b : List G
deriving DecidableEq

/-- `Output<F>` (src/commitment.rs:143-147): a commitment output, a pair of
target-field elements `(T, U)`. -/
structure Output (F : Type) where
  T : F
  U : F
deriving DecidableEq

/-- `KZGOpening<G>` (src/proof.rs:349-350): the two opening group elements
`(π_u, π_v)` of a commitment-key KZG opening. -/
structure KZGOpening (G : Type) where
  pi_u : G
  pi_v : G
deriving DecidableEq

/-- `GipaProof<E>` (src/proof.rs:92-112), with `TF`, `G1`, `G2` standing
for the curve's target field and affine groups. -/
structure GipaProof (TF G1 G2 : Type) where
  nproofs : Nat
  comms_ab : List (Output TF × Output TF)
  comms_c : List (Output TF × Output TF)
  z_ab : List (TF × TF)
  z_c : List (G1 × G1)
  final_a : G1
  final_b : G2
  final_c : G1
  final_vkey : G2 × G2
  final_wkey : G1 × G1
deriving DecidableEq

/-- `TippMippProof<E>` (src/proof.rs:332-337). -/
structure TippMippProof (TF G1 G2 : Type) where
  gipa : GipaProof TF G1 G2
  vkey_opening : KZGOpening G2
  wkey_opening : KZGOpening G1
deriving DecidableEq

/-- `AggregateProof<E>` (src/proof.rs:16-28). -/
structure AggregateProof (TF G1 G2 : Type) where
  com_ab : Output TF
  com_c : Output TF
  ip_ab : TF
  agg_c : G1
  tmipp : TippMippProof TF G1 G2
deriving DecidableEq

/-! ### Commitment-key operations (src/commitment.rs)

The Rust operations iterate over `a.par_iter().zip(b.par_iter()).zip(…)`;
a `zip` chain truncates to the shortest participating vector, which the
embeddings below reproduce exactly. -/

/-- `Key::has_correct_len` (src/commitment.rs:67-69). -/
def Key.has_correct_len {G : Type} (k : Key G) (n : Nat) : Bool :=
  k.a.length == n && k.b.length == n

/-- `Key::scale` (src/commitment.rs:73-90): entrywise exponentiation of
both halves of the key by a scalar vector.  `si • p` models
`p.mul(si).into_affine()`. -/
def Key.scale {F G : Type} [SMul F G] (k : Key G) (s_vec : List F) :
    Except Error (Key G) :=
  if k.a.length ≠ s_vec.length then .error .invalidKeyLength
  else
    let entries := ((k.a.zip k.b).zip s_vec).map fun p =>
      (p.2 • p.1.1, p.2 • p.1.2)
    .ok { a := entries.map Prod.fst, b := entries.map Prod.snd }

/-- `Key::split` (src/commitment.rs:93-106): `Vec::split_off(at)` keeps the
first `at` entries and returns the tail; it panics (here: `none`) when
`at` exceeds the vector length. -/
def Key.split {G : Type} (k : Key G) (at_ : Nat) : Option (Key G × Key G) :=
  if at_ ≤ k.a.length ∧ at_ ≤ k.b.length then
    some ({ a := k.a.take at_, b := k.b.take at_ },
          { a := k.a.drop at_, b := k.b.drop at_ })
  else none

/-- `Key::compress` (src/commitment.rs:111-132): entrywise
`left_i + scale • right_i` on both halves (written multiplicatively in the
source comments as `left_i * right_i^scale`); fails when the `a`-vector
lengths differ. -/
def Key.compress {F G : Type} [SMul F G] [Add G] (left right : Key G)
    (scale : F) : Except Error (Key G) :=
  if left.a.length ≠ right.a.length then .error .invalidKeyLength
  else
    let entries := ((((left.a.zip left.b).zip right.a).zip right.b)).map fun q =>
      (scale • q.1.2 + q.1.1.1, scale • q.2 + q.1.1.2)
    .ok { a := entries.map Prod.fst, b := entries.map Prod.snd }

/-! ### Inner-product primitives (src/ip.rs)

The pairing backend (arkworks `Pairing`) is external; it is abstracted as
a `PairingEngine` carrying the Miller loop, the (fallible) final
exponentiation, and the single pairing `e`.  `PairingEngine.MillerSpec` is
the backend contract that the multi-Miller loop followed by final
exponentiation computes the product of the pairings of the input pairs. -/

/-- Abstract pairing backend: `MT` is the Miller-loop output type, `GT` the
target group. -/
structure PairingEngine (G1 G2 GT MT : Type) where
  e : G1 → G2 → GT
  multiMiller : List (G1 × G2) → MT
  finalExp : MT → Option GT

/-- The backend contract: final exponentiation of a multi-Miller loop
yields the product of pairings `∏ e(aᵢ, bᵢ)`. -/
def PairingEngine.MillerSpec {G1 G2 GT MT : Type} [CommMonoid GT]
    (E : PairingEngine G1 G2 GT MT) : Prop :=
  ∀ l : List (G1 × G2),
    E.finalExp (E.multiMiller l) = some ((l.map fun p => E.e p.1 p.2).prod)

/-- `ip::pairing_miller_affine` (src/ip.rs:8-25): length check, then the
multi-Miller loop over the paired inputs. -/
def pairing_miller_affine {G1 G2 GT MT : Type}
    (E : PairingEngine G1 G2 GT MT) (left : List G1) (right : List G2) :
    Except Error MT :=
  if left.length ≠ right.length then .error .invalidIPVectorLength
  else .ok (E.multiMiller (left.zip right))

/-- `ip::pairing` (src/ip.rs:28-34): Miller loop then final exponentiation;
a `None` final exponentiation becomes `Error::InvalidPairing`. -/
def ip_pairing {G1 G2 GT MT : Type}
    (E : PairingEngine G1 G2 GT MT) (left : List G1) (right : List G2) :
    Except Error GT :=
  match pairing_miller_affine E left right with
  | .error err => .error err
  | .ok m =>
    match E.finalExp m with
    | none => .error .invalidPairing
    | some g => .ok g

/-- `ip::multiexponentiation` (src/ip.rs:36-44), with the external
`VariableBaseMSM::msm` abstracted as `msmFn`.  Note the source really does
return `Error::InvalidPairing` on the length mismatch and maps an MSM
failure to `Error::InvalidIPVectorLength`. -/
def multiexponentiation {F G : Type} (msmFn : List G → List F → Option G)
    (left : List G) (right : List F) : Except Error G :=
  if left.length ≠ right.length then .error .invalidPairing
  else
    match msmFn left right with
    | none => .error .invalidIPVectorLength
    | some g => .ok g

/-! ### Pair commitments (src/commitment.rs:153-188) -/

/-- `commitment::single_g1` (src/commitment.rs:153-162):
`(∏ e(aᵢ, vkey.aᵢ), ∏ e(aᵢ, vkey.bᵢ))`; `try_par!` surfaces the first
error of the two inner-pairing computations. -/
def single_g1 {G1 G2 GT MT : Type}
    (E : PairingEngine G1 G2 GT MT) (vkey : Key G2) (a_vec : List G1) :
    Except Error (Output GT) :=
  match ip_pairing E a_vec vkey.a, ip_pairing E a_vec vkey.b with
  | .ok t, .ok u => .ok { T := t, U := u }
  | .error err, _ => .error err
  | _, .error err => .error err

/-- `commitment::pair` (src/commitment.rs:168-188):
`T = (∏ e(aᵢ, vkey.aᵢ)) * (∏ e(wkey.aᵢ, bᵢ))` and similarly for `U` with
the `b`-halves of the keys. -/
def pair {G1 G2 GT MT : Type} [Mul GT]
    (E : PairingEngine G1 G2 GT MT) (vkey : Key G2) (wkey : Key G1)
    (a : List G1) (b : List G2) : Except Error (Output GT) :=
  match ip_pairing E a vkey.a, ip_pairing E wkey.a b,
        ip_pairing E a vkey.b, ip_pairing E wkey.b b with
  | .ok t1, .ok t2, .ok u1, .ok u2 => .ok { T := t1 * t2, U := u1 * u2 }
  | .error err, _, _, _ => .error err
  | _, .error err, _, _ => .error err
  | _, _, .error err, _ => .error err
  | _, _, _, .error err => .error err

/-! ### Byte layout of the proofs (src/proof.rs)

`AggregateProof` and `TippMippProof` derive `CanonicalSerialize` /
`CanonicalDeserialize`, which write the fields in declaration order;
`GipaProof` implements both manually (src/proof.rs:135-328). -/

/-- Derived codec for `Output` (fields in order, like the arkworks derive
macro). -/
def outputCodec {F : Type} (cF : Codec F) : Codec (Output F) where
  enc o := cF.enc o.T ++ cF.enc o.U
  dec s :=
    match cF.dec s with
    | none => none
    | some (t, s1) =>
      match cF.dec s1 with
      | none => none
      | some (u, s2) => some ({ T := t, U := u }, s2)

/-- Derived codec for `KZGOpening` (two group elements in order). -/
def kzgCodec {G : Type} (cG : Codec G) : Codec (KZGOpening G) where
  enc o := cG.enc o.pi_u ++ cG.enc o.pi_v
  dec s :=
    match cG.dec s with
    | none => none
    | some (u, s1) =>
      match cG.dec s1 with
      | none => none
      | some (v, s2) => some ({ pi_u := u, pi_v := v }, s2)

/-- `GipaProof::serialize_with_mode` (src/proof.rs:154-202): `nproofs`
(little-endian `u32`), the four level-indexed vectors entry by entry (each
entry a pair), then the final values and final commitment keys.  Each
vector length is `assert_eq!`-checked against `log_proofs`; a failed
assertion panics, modelled as `none`. -/
def GipaProof.serialize {TF G1 G2 : Type}
    (cTF : Codec TF) (cG1 : Codec G1) (cG2 : Codec G2)
    (p : GipaProof TF G1 G2) : Option (List Nat) :=
  let L := log_proofs p.nproofs
  if p.comms_ab.length = L ∧ p.comms_c.length = L ∧
     p.z_ab.length = L ∧ p.z_c.length = L then
    some (u32enc p.nproofs
      ++ encList ((outputCodec cTF).pair (outputCodec cTF)) p.comms_ab
      ++ encList ((outputCodec cTF).pair (outputCodec cTF)) p.comms_c
      ++ encList (cTF.pair cTF) p.z_ab
      ++ encList (cG1.pair cG1) p.z_c
      ++ cG1.enc p.final_a
      ++ cG2.enc p.final_b
      ++ cG1.enc p.final_c
      ++ (cG2.pair cG2).enc p.final_vkey
      ++ (cG1.pair cG1).enc p.final_wkey)
  else none

/-- `GipaProof::serialized_size` (src/proof.rs:136-153), faithful to the
source formula: the `u32` size plus `log_proofs` times the sizes of the
first entry of every vector and of the final values.  Indexing `…[0]`
panics (here: `none`) when a vector is empty. -/
def GipaProof.serializedSize {TF G1 G2 : Type}
    (cTF : Codec TF) (cG1 : Codec G1) (cG2 : Codec G2)
    (p : GipaProof TF G1 G2) : Option Nat :=
  match p.comms_ab, p.comms_c, p.z_ab, p.z_c with
  | ca :: _, cc :: _, zab :: _, zc :: _ =>
    some ((u32enc p.nproofs).length
      + log_proofs p.nproofs *
        (((outputCodec cTF).enc ca.1).length + ((outputCodec cTF).enc ca.2).length
          + ((outputCodec cTF).enc cc.1).length + ((outputCodec cTF).enc cc.2).length
          + (cTF.enc zab.1).length + (cTF.enc zab.2).length
          + (cG1.enc zc.1).length + (cG1.enc zc.2).length
          + (cG1.enc p.final_a).length + (cG2.enc p.final_b).length
          + (cG1.enc p.final_c).length
          + ((cG2.pair cG2).enc p.final_vkey).length
          + ((cG1.pair cG1).enc p.final_wkey).length))
  | _, _, _, _ => none

/-- `GipaProof::deserialize_with_mode` (src/proof.rs:218-327): read
`nproofs`, reject `nproofs < 2` (`SerializationError::InvalidData`),
re-derive `log_proofs` and read exactly that many entries per vector, then
the final values.  No power-of-two or upper-bound check happens here. -/
def GipaProof.deserialize {TF G1 G2 : Type}
    (cTF : Codec TF) (cG1 : Codec G1) (cG2 : Codec G2) (s : List Nat) :
    Option (GipaProof TF G1 G2 × List Nat) :=
  match u32dec s with
  | none => none
  | some (nproofs, s0) =>
    if nproofs < 2 then none
    else
      match decCount ((outputCodec cTF).pair (outputCodec cTF))
          (log_proofs nproofs) s0 with
      | none => none
      | some (comms_ab, s1) =>
        match decCount ((outputCodec cTF).pair (outputCodec cTF))
            (log_proofs nproofs) s1 with
        | none => none
        | some (comms_c, s2) =>
          match decCount (cTF.pair cTF) (log_proofs nproofs) s2 with
          | none => none
          | some (z_ab, s3) =>
            match decCount (cG1.pair cG1) (log_proofs nproofs) s3 with
            | none => none
            | some (z_c, s4) =>
              match cG1.dec s4 with
              | none => none
              | some (final_a, s5) =>
                match cG2.dec s5 with
                | none => none
                | some (final_b, s6) =>
                  match cG1.dec s6 with
                  | none => none
                  | some (final_c, s7) =>
                    match (cG2.pair cG2).dec s7 with
                    | none => none
                    | some (final_vkey, s8) =>
                      match (cG1.pair cG1).dec s8 with
                      | none => none
                      | some (final_wkey, s9) =>
                        some ({ nproofs, comms_ab, comms_c, z_ab, z_c,
                                final_a, final_b, final_c,
                                final_vkey, final_wkey }, s9)

/-- `AggregateProof::write` (src/proof.rs:75-78), i.e. the derived
`serialize_compressed`: fields in declaration order.  Writing into a byte
vector cannot fail, so the only failure mode is the panic inside
`GipaProof::serialize_with_mode`. -/
def AggregateProof.write {TF G1 G2 : Type}
    (cTF : Codec TF) (cG1 : Codec G1) (cG2 : Codec G2)
    (p : AggregateProof TF G1 G2) : Option (List Nat) :=
  match GipaProof.serialize cTF cG1 cG2 p.tmipp.gipa with
  | none => none
  | some g =>
    some ((outputCodec cTF).enc p.com_ab
      ++ (outputCodec cTF).enc p.com_c
      ++ cTF.enc p.ip_ab
      ++ cG1.enc p.agg_c
      ++ g
      ++ (kzgCodec cG2).enc p.tmipp.vkey_opening
      ++ (kzgCodec cG1).enc p.tmipp.wkey_opening)

/-- `AggregateProof::read` (src/proof.rs:84-86), i.e. the derived
`deserialize_compressed`: fields in declaration order.  arkworks readers
consume a prefix of the stream and perform no end-of-input check, so any
bytes left after the last field are ignored. -/
def AggregateProof.read {TF G1 G2 : Type}
    (cTF : Codec TF) (cG1 : Codec G1) (cG2 : Codec G2) (s : List Nat) :
    Option (AggregateProof TF G1 G2) :=
  match (outputCodec cTF).dec s with
  | none => none
  | some (com_ab, s1) =>
    match (outputCodec cTF).dec s1 with
    | none => none
    | some (com_c, s2) =>
      match cTF.dec s2 with
      | none => none
      | some (ip_ab, s3) =>
        match cG1.dec s3 with
        | none => none
        | some (agg_c, s4) =>
          match GipaProof.deserialize cTF cG1 cG2 s4 with
          | none => none
          | some (gipa, s5) =>
            match (kzgCodec cG2).dec s5 with
            | none => none
            | some (vkey_opening, s6) =>
              match (kzgCodec cG1).dec s6 with
              | none => none
              | some (wkey_opening, _s7) =>
                some { com_ab, com_c, ip_ab, agg_c,
                       tmipp := { gipa, vkey_opening, wkey_opening } }

/-- `AggregateProof::parsing_check` (src/proof.rs:43-69): bounds on
`nproofs`, then the power-of-two check, then the four vector lengths
against `ref_len = ⌈log2 nproofs⌉`. -/
def AggregateProof.parsing_check {TF G1 G2 : Type}
    (p : AggregateProof TF G1 G2) : Except Error Unit :=
  if p.tmipp.gipa.nproofs < 2 ∨ p.tmipp.gipa.nproofs > MAX_SRS_SIZE then
    .error (.invalidProof "Proof length out of bounds")
  else if ¬ is_power_of_two p.tmipp.gipa.nproofs then
    .error (.invalidProof "Proof length not a power of two")
  else if log_proofs p.tmipp.gipa.nproofs = p.tmipp.gipa.comms_ab.length ∧
          log_proofs p.tmipp.gipa.nproofs = p.tmipp.gipa.comms_c.length ∧
          log_proofs p.tmipp.gipa.nproofs = p.tmipp.gipa.z_ab.length ∧
          log_proofs p.tmipp.gipa.nproofs = p.tmipp.gipa.z_c.length then
    .ok ()
  else .error (.invalidProof "Proof vectors unequal sizes")

/-! ### Concrete instances

Small executable instantiations of the abstract element types and backend
functions, used to evaluate the embedded operations on concrete inputs. -/

/-- A one-byte element codec on `Nat`. -/
def natCodec : Codec Nat where
  enc n := [n]
  dec s :=
    match s with
    | [] => none
    | b :: r => some (b, r)

/-- A concrete pairing backend over `Nat` (multiplication as the pairing,
identity final exponentiation). -/
def natEngine : PairingEngine Nat Nat Nat Nat where
  e x y := x * y
  multiMiller l := (l.map fun p => p.1 * p.2).prod
  finalExp m := some m

/-- A concrete backend whose final exponentiation never yields a result. -/
def stuckEngine : PairingEngine Nat Nat Nat Nat where
  e x y := x * y
  multiMiller l := (l.map fun p => p.1 * p.2).prod
  finalExp _ := none

/-- A concrete MSM backend. -/
def natMsm (points : List Nat) (scalars : List Nat) : Option Nat :=
  some ((points.zip scalars).map fun p => p.1 * p.2).sum

/-- A concrete MSM backend that always fails. -/
def failMsm (_points : List Nat) (_scalars : List Nat) : Option Nat := none

/-- A small well-formed `GipaProof` over `Nat` elements (`nproofs = 2`,
one level). -/
def sampleGipa : GipaProof Nat Nat Nat where
  nproofs := 2
  comms_ab := [(⟨0, 1⟩, ⟨2, 3⟩)]
  comms_c := [(⟨4, 5⟩, ⟨6, 7⟩)]
  z_ab := [(8, 9)]
  z_c := [(10, 11)]
  final_a := 12
  final_b := 13
  final_c := 14
  final_vkey := (15, 16)
  final_wkey := (17, 18)

/-- A small well-formed `AggregateProof` over `Nat` elements. -/
def sampleProof : AggregateProof Nat Nat Nat where
  com_ab := ⟨20, 21⟩
  com_c := ⟨22, 23⟩
  ip_ab := 24
  agg_c := 25
  tmipp :=
    { gipa := sampleGipa
      vkey_opening := ⟨26, 27⟩
      wkey_opening := ⟨28, 29⟩ }

/-- `sampleProof` with the `nproofs` field tampered to `14`. -/
def tampered14Proof : AggregateProof Nat Nat Nat :=
  { sampleProof with
    tmipp :=
      { sampleProof.tmipp with gipa := { sampleGipa with nproofs := 14 } } }

/-- A byte stream whose leading `u32` is `2^20 + 1` (neither a power of two
nor within `MAX_SRS_SIZE`), followed by enough zero bytes for all fields:
`⌈log2 (2^20+1)⌉ = 21` entries per vector under the one-byte element codec
(`21·4 + 21·4 + 21·2 + 21·2 = 252` bytes) plus `7` final-value bytes. -/
def overSizedBytes : List Nat := u32enc 1048577 ++ List.replicate 259 0

/-- The proof that `overSizedBytes` decodes to. -/
def overSizedGipa : GipaProof Nat Nat Nat where
  nproofs := 1048577
  comms_ab := List.replicate 21 (⟨0, 0⟩, ⟨0, 0⟩)
  comms_c := List.replicate 21 (⟨0, 0⟩, ⟨0, 0⟩)
  z_ab := List.replicate 21 (0, 0)
  z_c := List.replicate 21 (0, 0)
  final_a := 0
  final_b := 0
  final_c := 0
  final_vkey := (0, 0)
  final_wkey := (0, 0)

/-! ### The `f32` level count outside the protocol range

`log_proofs` above models `(nproofs as f32).log2().ceil()` by the exact
ceiling base-2 logarithm, which is what the cast-log2-ceil pipeline
computes for every `nproofs ≤ MAX_SRS_SIZE` (and on every power of two of
any size).  On larger `u32` values the two diverge: already the `as f32`
cast is lossy above `2^24` — it rounds `2^24 + 1` down to `2^24` (round
to nearest, ties to even), so the program's level count there is `24`
while `⌈log2 (2^24+1)⌉ = 25`, independently of the platform's `log2f`.
The definitions below model exactly the determined part of that pipeline
so that the divergence can be exhibited on a concrete input. -/

/-- Fuel-based floor base-2 logarithm (index of the leading bit). -/
def floorLog2Aux : Nat → Nat → Nat
  | 0, _ => 0
  | fuel + 1, n => if n ≤ 1 then 0 else floorLog2Aux fuel (n / 2) + 1

/-- Floor base-2 logarithm, executable by structural recursion. -/
def floorLog2 (n : Nat) : Nat := floorLog2Aux n n

/-- Modelled from the Rust/IEEE-754 semantics of the `nproofs as f32`
cast (language-defined: round to nearest onto a 24-bit significand, ties
to even): the exact value the cast produces, for `n < 2^32` (all such
magnitudes are within the `f32` exponent range, so no overflow occurs). -/
def as_f32 (n : Nat) : Nat :=
  if n ≤ 16777216 then n
  else
    let step := 2 ^ (floorLog2 n - 23)
    let q := n / step
    let r := n % step
    if 2 * r < step then q * step
    else if 2 * r > step then (q + 1) * step
    else if q % 2 = 0 then q * step else (q + 1) * step

/-- Modelled from src/proof.rs:130-132, the `f32` pipeline
`(nproofs as f32).log2().ceil() as usize`, on the subdomain where the
cast lands on a power of two: there `log2` returns the integer exponent
exactly (it is representable, so any faithfully rounding `log2f` must
return it) and `ceil` is the identity, making the result determined
independently of the platform's libm; `none` elsewhere (where the result
depends on the libm's rounding of `log2f`). -/
def log_proofs_f32 (n : Nat) : Option Nat :=
  if is_power_of_two (as_f32 n) then some (floorLog2 (as_f32 n)) else none

/-- `GipaProof::serialize_with_mode` (src/proof.rs:154-202) with the
level count `L` that the `assert_eq!` checks compare against made an
explicit argument; `GipaProof.serialize` is this function applied at the
modelled `log_proofs` count, while the running program applies it at its
`f32`-computed count (see `log_proofs_f32`). -/
def GipaProof.serializeWithL {TF G1 G2 : Type}
    (cTF : Codec TF) (cG1 : Codec G1) (cG2 : Codec G2) (L : Nat)
    (p : GipaProof TF G1 G2) : Option (List Nat) :=
  if p.comms_ab.length = L ∧ p.comms_c.length = L ∧
     p.z_ab.length = L ∧ p.z_c.length = L then
    some (u32enc p.nproofs
      ++ encList ((outputCodec cTF).pair (outputCodec cTF)) p.comms_ab
      ++ encList ((outputCodec cTF).pair (outputCodec cTF)) p.comms_c
      ++ encList (cTF.pair cTF) p.z_ab
      ++ encList (cG1.pair cG1) p.z_c
      ++ cG1.enc p.final_a
      ++ cG2.enc p.final_b
      ++ cG1.enc p.final_c
      ++ (cG2.pair cG2).enc p.final_vkey
      ++ (cG1.pair cG1).enc p.final_wkey)
  else none

/-- A `GipaProof` with `nproofs = 2^24 + 1` whose four vectors have the
exact ceiling-log length `⌈log2 (2^24+1)⌉ = 25`. -/
def overflowGipa25 : GipaProof Nat Nat Nat where
  nproofs := 16777217
  comms_ab := List.replicate 25 (⟨0, 0⟩, ⟨0, 0⟩)
  comms_c := List.replicate 25 (⟨0, 0⟩, ⟨0, 0⟩)
  z_ab := List.replicate 25 (0, 0)
  z_c := List.replicate 25 (0, 0)
  final_a := 0
  final_b := 0
  final_c := 0
  final_vkey := (0, 0)
  final_wkey := (0, 0)

/-- A `GipaProof` with `nproofs = 2^24 + 1` whose four vectors have the
program's `f32`-computed length `24` (different from `⌈log2⌉ = 25`). -/
def overflowGipa24 : GipaProof Nat Nat Nat where
  nproofs := 16777217
  comms_ab := List.replicate 24 (⟨0, 0⟩, ⟨0, 0⟩)
  comms_c := List.replicate 24 (⟨0, 0⟩, ⟨0, 0⟩)
  z_ab := List.replicate 24 (0, 0)
  z_c := List.replicate 24 (0, 0)
  final_a := 0
  final_b := 0
  final_c := 0
  final_vkey := (0, 0)
  final_wkey := (0, 0)

/-! ## Theorems

First the generic facts about the numeric helpers and the codec
combinators, then one theorem (plus witness / counterexample where
required) per claim. -/

theorem logProofsAux_eq_clog (fuel : Nat) :
    ∀ n : Nat, n ≤ fuel → logProofsAux fuel n = Nat.clog 2 n := by
  induction fuel with
  | zero =>
    intro n hn
    interval_cases n
    simp [logProofsAux, Nat.clog_of_right_le_one]
  | succ fuel ih =>
    intro n hn
    by_cases h1 : n ≤ 1
    · simp [logProofsAux, h1, Nat.clog_of_right_le_one h1]
    · have h2 : 2 ≤ n := by omega
      have hrec : (n + 1) / 2 ≤ fuel := by omega
      have hstep := Nat.clog_of_two_le (b := 2) (by norm_num) h2
      have hx : n + 2 - 1 = n + 1 := by omega
      rw [hx] at hstep
      simp only [logProofsAux, if_neg h1, ih _ hrec, hstep]

/-- The fuel-based `log_proofs` is the ceiling base-2 logarithm. -/
theorem log_proofs_eq_clog (n : Nat) : log_proofs n = Nat.clog 2 n :=
  logProofsAux_eq_clog n n le_rfl

/-- On powers of two, `log_proofs` is the exponent. -/
theorem log_proofs_two_pow (k : Nat) : log_proofs (2 ^ k) = k := by
  rw [log_proofs_eq_clog, Nat.clog_pow 2 k (by norm_num)]

theorem isPowTwoAux_iff (fuel : Nat) :
    ∀ n : Nat, n ≤ fuel → (isPowTwoAux fuel n = true ↔ ∃ k, n = 2 ^ k) := by
  induction fuel with
  | zero =>
    intro n hn
    interval_cases n
    simp only [isPowTwoAux]
    constructor
    · intro h; exact absurd h (by decide)
    · rintro ⟨k, hk⟩; exact absurd hk.symm (by positivity)
  | succ fuel ih =>
    intro n hn
    by_cases h1 : n ≤ 1
    · interval_cases n
      · simp only [isPowTwoAux, if_pos (by omega : (0:Nat) ≤ 1)]
        constructor
        · intro h; exact absurd h (by decide)
        · rintro ⟨k, hk⟩; exact absurd hk.symm (by positivity)
      · simp only [isPowTwoAux, if_pos (by omega : (1:Nat) ≤ 1)]
        constructor
        · intro _; exact ⟨0, rfl⟩
        · intro _; rfl
    · have h2 : 2 ≤ n := by omega
      simp only [isPowTwoAux, if_neg h1, Bool.and_eq_true, decide_eq_true_eq]
      rw [ih (n / 2) (by omega)]
      constructor
      · rintro ⟨heven, k, hk⟩
        exact ⟨k + 1, by omega⟩
      · rintro ⟨k, hk⟩
        match k with
        | 0 => omega
        | k + 1 =>
          refine ⟨by omega, k, ?_⟩
          omega

/-- `is_power_of_two` decides membership in the powers of two. -/
theorem is_power_of_two_iff (n : Nat) :
    is_power_of_two n = true ↔ ∃ k, n = 2 ^ k :=
  isPowTwoAux_iff n n le_rfl

theorem Codec.Lawful.pair_lawful {α β : Type} {cα : Codec α} {cβ : Codec β}
    (hα : cα.Lawful) (hβ : cβ.Lawful) : (cα.pair cβ).Lawful := by
  rintro ⟨a, b⟩ rest
  simp only [Codec.pair, List.append_assoc, hα a (cβ.enc b ++ rest), hβ b rest]

theorem outputCodec_lawful {F : Type} {cF : Codec F} (hF : cF.Lawful) :
    (outputCodec cF).Lawful := by
  rintro ⟨t, u⟩ rest
  simp only [outputCodec, List.append_assoc, hF t (cF.enc u ++ rest), hF u rest]

theorem kzgCodec_lawful {G : Type} {cG : Codec G} (hG : cG.Lawful) :
    (kzgCodec cG).Lawful := by
  rintro ⟨u, v⟩ rest
  simp only [kzgCodec, List.append_assoc, hG u (cG.enc v ++ rest), hG v rest]

/-- Decoding exactly `l.length` elements off `encList c l ++ rest` returns
`l` and leaves `rest`. -/
theorem decCount_encList {α : Type} {c : Codec α} (hc : c.Lawful) :
    ∀ (l : List α) (rest : List Nat),
      decCount c l.length (encList c l ++ rest) = some (l, rest) := by
  intro l
  induction l with
  | nil => intro rest; simp [decCount, encList]
  | cons a t ih =>
    intro rest
    have henc : encList c (a :: t) ++ rest = c.enc a ++ (encList c t ++ rest) := by
      simp [encList]
    rw [List.length_cons, henc]
    simp only [decCount, hc a (encList c t ++ rest), ih rest]

/-- `u32` little-endian round trip. -/
theorem u32_roundtrip (n : Nat) (h : n < 4294967296) (rest : List Nat) :
    u32dec (u32enc n ++ rest) = some (n, rest) := by
  have hn : n % 256 + 256 * (n / 256 % 256) + 65536 * (n / 65536 % 256)
      + 16777216 * (n / 16777216 % 256) = n := by omega
  simp only [u32enc, List.cons_append, List.nil_append, u32dec, hn]

/-- Serializing a `GipaProof` whose vectors have the prescribed lengths
succeeds, and deserializing the written bytes (with anything appended)
returns the same proof and leaves exactly the appended bytes. -/
theorem gipa_write_read {TF G1 G2 : Type}
    {cTF : Codec TF} {cG1 : Codec G1} {cG2 : Codec G2}
    (hTF : cTF.Lawful) (hG1 : cG1.Lawful) (hG2 : cG2.Lawful)
    (p : GipaProof TF G1 G2)
    (h2 : 2 ≤ p.nproofs) (h32 : p.nproofs < 4294967296)
    (hab : p.comms_ab.length = log_proofs p.nproofs)
    (hcc : p.comms_c.length = log_proofs p.nproofs)
    (hzab : p.z_ab.length = log_proofs p.nproofs)
    (hzc : p.z_c.length = log_proofs p.nproofs)
    (rest : List Nat) :
    ∃ bytes, GipaProof.serialize cTF cG1 cG2 p = some bytes ∧
      GipaProof.deserialize cTF cG1 cG2 (bytes ++ rest) = some (p, rest) := by
  have hcO : ((outputCodec cTF).pair (outputCodec cTF)).Lawful :=
    (outputCodec_lawful hTF).pair_lawful (outputCodec_lawful hTF)
  have hcTT : (cTF.pair cTF).Lawful := hTF.pair_lawful hTF
  have hc11 : (cG1.pair cG1).Lawful := hG1.pair_lawful hG1
  have hc22 : (cG2.pair cG2).Lawful := hG2.pair_lawful hG2
  have hser : GipaProof.serialize cTF cG1 cG2 p = some
      (u32enc p.nproofs
        ++ encList ((outputCodec cTF).pair (outputCodec cTF)) p.comms_ab
        ++ encList ((outputCodec cTF).pair (outputCodec cTF)) p.comms_c
        ++ encList (cTF.pair cTF) p.z_ab
        ++ encList (cG1.pair cG1) p.z_c
        ++ cG1.enc p.final_a
        ++ cG2.enc p.final_b
        ++ cG1.enc p.final_c
        ++ (cG2.pair cG2).enc p.final_vkey
        ++ (cG1.pair cG1).enc p.final_wkey) := by
    unfold GipaProof.serialize
    rw [if_pos ⟨hab, hcc, hzab, hzc⟩]
  refine ⟨_, hser, ?_⟩
  have d1 : ∀ X, decCount ((outputCodec cTF).pair (outputCodec cTF))
      (log_proofs p.nproofs)
      (encList ((outputCodec cTF).pair (outputCodec cTF)) p.comms_ab ++ X)
      = some (p.comms_ab, X) := by
    intro X; rw [← hab]; exact decCount_encList hcO p.comms_ab X
  have d2 : ∀ X, decCount ((outputCodec cTF).pair (outputCodec cTF))
      (log_proofs p.nproofs)
      (encList ((outputCodec cTF).pair (outputCodec cTF)) p.comms_c ++ X)
      = some (p.comms_c, X) := by
    intro X; rw [← hcc]; exact decCount_encList hcO p.comms_c X
  have d3 : ∀ X, decCount (cTF.pair cTF) (log_proofs p.nproofs)
      (encList (cTF.pair cTF) p.z_ab ++ X) = some (p.z_ab, X) := by
    intro X; rw [← hzab]; exact decCount_encList hcTT p.z_ab X
  have d4 : ∀ X, decCount (cG1.pair cG1) (log_proofs p.nproofs)
      (encList (cG1.pair cG1) p.z_c ++ X) = some (p.z_c, X) := by
    intro X; rw [← hzc]; exact decCount_encList hc11 p.z_c X
  have e1 : ∀ X, cG1.dec (cG1.enc p.final_a ++ X) = some (p.final_a, X) :=
    fun X => hG1 p.final_a X
  have e2 : ∀ X, cG2.dec (cG2.enc p.final_b ++ X) = some (p.final_b, X) :=
    fun X => hG2 p.final_b X
  have e3 : ∀ X, cG1.dec (cG1.enc p.final_c ++ X) = some (p.final_c, X) :=
    fun X => hG1 p.final_c X
  have e4 : ∀ X, (cG2.pair cG2).dec ((cG2.pair cG2).enc p.final_vkey ++ X)
      = some (p.final_vkey, X) := fun X => hc22 p.final_vkey X
  have e5 : ∀ X, (cG1.pair cG1).dec ((cG1.pair cG1).enc p.final_wkey ++ X)
      = some (p.final_wkey, X) := fun X => hc11 p.final_wkey X
  simp only [GipaProof.deserialize, List.append_assoc,
    u32_roundtrip p.nproofs h32, if_neg (show ¬ p.nproofs < 2 by omega),
    d1, d2, d3, d4, e1, e2, e3, e4, e5]

/-- Writing an `AggregateProof` whose GIPA part has the prescribed vector
lengths succeeds, and reading the written bytes followed by any trailing
bytes returns the same proof (the trailing bytes are ignored). -/
theorem agg_write_read {TF G1 G2 : Type}
    {cTF : Codec TF} {cG1 : Codec G1} {cG2 : Codec G2}
    (hTF : cTF.Lawful) (hG1 : cG1.Lawful) (hG2 : cG2.Lawful)
    (p : AggregateProof TF G1 G2)
    (h2 : 2 ≤ p.tmipp.gipa.nproofs) (h32 : p.tmipp.gipa.nproofs < 4294967296)
    (hab : p.tmipp.gipa.comms_ab.length = log_proofs p.tmipp.gipa.nproofs)
    (hcc : p.tmipp.gipa.comms_c.length = log_proofs p.tmipp.gipa.nproofs)
    (hzab : p.tmipp.gipa.z_ab.length = log_proofs p.tmipp.gipa.nproofs)
    (hzc : p.tmipp.gipa.z_c.length = log_proofs p.tmipp.gipa.nproofs)
    (extra : List Nat) :
    ∃ bytes, AggregateProof.write cTF cG1 cG2 p = some bytes ∧
      AggregateProof.read cTF cG1 cG2 (bytes ++ extra) = some p := by
  obtain ⟨gb, hser, hdes⟩ := gipa_write_read hTF hG1 hG2 p.tmipp.gipa h2 h32
    hab hcc hzab hzc
    ((kzgCodec cG2).enc p.tmipp.vkey_opening
      ++ ((kzgCodec cG1).enc p.tmipp.wkey_opening ++ extra))
  have o1 : ∀ X, (outputCodec cTF).dec ((outputCodec cTF).enc p.com_ab ++ X)
      = some (p.com_ab, X) := fun X => outputCodec_lawful hTF p.com_ab X
  have o2 : ∀ X, (outputCodec cTF).dec ((outputCodec cTF).enc p.com_c ++ X)
      = some (p.com_c, X) := fun X => outputCodec_lawful hTF p.com_c X
  have o3 : ∀ X, cTF.dec (cTF.enc p.ip_ab ++ X) = some (p.ip_ab, X) :=
    fun X => hTF p.ip_ab X
  have o4 : ∀ X, cG1.dec (cG1.enc p.agg_c ++ X) = some (p.agg_c, X) :=
    fun X => hG1 p.agg_c X
  have o5 : ∀ X, (kzgCodec cG2).dec
      ((kzgCodec cG2).enc p.tmipp.vkey_opening ++ X)
      = some (p.tmipp.vkey_opening, X) :=
    fun X => kzgCodec_lawful hG2 p.tmipp.vkey_opening X
  have o6 : ∀ X, (kzgCodec cG1).dec
      ((kzgCodec cG1).enc p.tmipp.wkey_opening ++ X)
      = some (p.tmipp.wkey_opening, X) :=
    fun X => kzgCodec_lawful hG1 p.tmipp.wkey_opening X
  have hw : AggregateProof.write cTF cG1 cG2 p = some
      ((outputCodec cTF).enc p.com_ab
        ++ (outputCodec cTF).enc p.com_c
        ++ cTF.enc p.ip_ab
        ++ cG1.enc p.agg_c
        ++ gb
        ++ (kzgCodec cG2).enc p.tmipp.vkey_opening
        ++ (kzgCodec cG1).enc p.tmipp.wkey_opening) := by
    unfold AggregateProof.write
    rw [hser]
  refine ⟨_, hw, ?_⟩
  simp only [AggregateProof.read, List.append_assoc, o1, o2, o3, o4, hdes,
    o5, o6]

/-- The one-byte `Nat` codec is lawful. -/
theorem natCodec_lawful : natCodec.Lawful := fun _ _ => rfl

/-- C1: for every valid `AggregateProof` `p` (GIPA vectors of length
`log2 nproofs`, `nproofs` a power of two in `[2, MAX_SRS_SIZE]`),
`AggregateProof::write` succeeds and `AggregateProof::read` on the
produced bytes returns a proof equal to `p` (structural equality, which is
what the component-wise `PartialEq` computes). -/
theorem C1_aggregate_proof_roundtrip {TF G1 G2 : Type}
    (cTF : Codec TF) (cG1 : Codec G1) (cG2 : Codec G2)
    (hTF : cTF.Lawful) (hG1 : cG1.Lawful) (hG2 : cG2.Lawful)
    (p : AggregateProof TF G1 G2)
    (hpow : ∃ k, p.tmipp.gipa.nproofs = 2 ^ k)
    (hlo : 2 ≤ p.tmipp.gipa.nproofs)
    (hhi : p.tmipp.gipa.nproofs ≤ MAX_SRS_SIZE)
    (hab : p.tmipp.gipa.comms_ab.length = log_proofs p.tmipp.gipa.nproofs)
    (hcc : p.tmipp.gipa.comms_c.length = log_proofs p.tmipp.gipa.nproofs)
    (hzab : p.tmipp.gipa.z_ab.length = log_proofs p.tmipp.gipa.nproofs)
    (hzc : p.tmipp.gipa.z_c.length = log_proofs p.tmipp.gipa.nproofs) :
    ∃ bytes, AggregateProof.write cTF cG1 cG2 p = some bytes ∧
      AggregateProof.read cTF cG1 cG2 bytes = some p := by
  have h32 : p.tmipp.gipa.nproofs < 4294967296 := by
    have hmax : MAX_SRS_SIZE < 4294967296 := by norm_num [MAX_SRS_SIZE]
    omega
  obtain ⟨bytes, hw, hr⟩ :=
    agg_write_read hTF hG1 hG2 p hlo h32 hab hcc hzab hzc []
  exact ⟨bytes, hw, by simpa using hr⟩

/-- C1 witness: the round trip evaluated on a concrete two-proof
aggregate over the one-byte codec. -/
theorem C1_witness :
    (∃ k, sampleProof.tmipp.gipa.nproofs = 2 ^ k) ∧
    2 ≤ sampleProof.tmipp.gipa.nproofs ∧
    sampleProof.tmipp.gipa.nproofs ≤ MAX_SRS_SIZE ∧
    ∃ bytes,
      AggregateProof.write natCodec natCodec natCodec sampleProof = some bytes ∧
      AggregateProof.read natCodec natCodec natCodec bytes = some sampleProof :=
  ⟨⟨1, rfl⟩, by decide, by decide,
    C1_aggregate_proof_roundtrip natCodec natCodec natCodec
      natCodec_lawful natCodec_lawful natCodec_lawful sampleProof
      ⟨1, rfl⟩ (by decide) (by decide)
      (by decide) (by decide) (by decide) (by decide)⟩

/-- C2: `parsing_check` succeeds exactly when `nproofs` lies in
`[2, MAX_SRS_SIZE]`, is a power of two, and all four level-indexed vectors
have length `⌈log2 nproofs⌉`; and a proof with `nproofs = 14` fails with
`InvalidProof("Proof length not a power of two")`. -/
theorem C2_parsing_check {TF G1 G2 : Type} (p : AggregateProof TF G1 G2) :
    (p.parsing_check = .ok () ↔
      (2 ≤ p.tmipp.gipa.nproofs ∧ p.tmipp.gipa.nproofs ≤ MAX_SRS_SIZE ∧
        (∃ k, p.tmipp.gipa.nproofs = 2 ^ k) ∧
        p.tmipp.gipa.comms_ab.length = log_proofs p.tmipp.gipa.nproofs ∧
        p.tmipp.gipa.comms_c.length = log_proofs p.tmipp.gipa.nproofs ∧
        p.tmipp.gipa.z_ab.length = log_proofs p.tmipp.gipa.nproofs ∧
        p.tmipp.gipa.z_c.length = log_proofs p.tmipp.gipa.nproofs))
    ∧ (p.tmipp.gipa.nproofs = 14 →
        p.parsing_check =
          .error (.invalidProof "Proof length not a power of two")) := by
  constructor
  · unfold AggregateProof.parsing_check
    by_cases h1 : p.tmipp.gipa.nproofs < 2 ∨ p.tmipp.gipa.nproofs > MAX_SRS_SIZE
    · rw [if_pos h1]
      constructor
      · intro h; exact absurd h (by simp)
      · rintro ⟨ha, hb, -⟩; omega
    · rw [if_neg h1]
      push_neg at h1
      by_cases h2 : is_power_of_two p.tmipp.gipa.nproofs = true
      · rw [if_neg (not_not_intro h2)]
        by_cases h3 : log_proofs p.tmipp.gipa.nproofs =
              p.tmipp.gipa.comms_ab.length ∧
            log_proofs p.tmipp.gipa.nproofs = p.tmipp.gipa.comms_c.length ∧
            log_proofs p.tmipp.gipa.nproofs = p.tmipp.gipa.z_ab.length ∧
            log_proofs p.tmipp.gipa.nproofs = p.tmipp.gipa.z_c.length
        · rw [if_pos h3]
          obtain ⟨hab, hcc, hzab, hzc⟩ := h3
          simp only [true_iff]
          exact ⟨by omega, by omega, (is_power_of_two_iff _).mp h2,
            hab.symm, hcc.symm, hzab.symm, hzc.symm⟩
        · rw [if_neg h3]
          constructor
          · intro h; exact absurd h (by simp)
          · rintro ⟨-, -, -, hab, hcc, hzab, hzc⟩
            exact absurd ⟨hab.symm, hcc.symm, hzab.symm, hzc.symm⟩ h3
      · rw [if_pos h2]
        constructor
        · intro h; exact absurd h (by simp)
        · rintro ⟨-, -, hpow, -⟩
          exact absurd ((is_power_of_two_iff _).mpr hpow) h2
  · intro h14
    unfold AggregateProof.parsing_check
    rw [if_neg (by rw [h14]; decide), if_pos (by rw [h14]; decide)]

/-- C2 witness: a concrete well-formed proof passes `parsing_check` and
the same proof with `nproofs` tampered to `14` fails with the
power-of-two error. -/
theorem C2_witness :
    sampleProof.parsing_check = .ok () ∧
    tampered14Proof.parsing_check =
      .error (.invalidProof "Proof length not a power of two") :=
  ⟨(C2_parsing_check sampleProof).1.mpr
      ⟨by decide, by decide, ⟨1, rfl⟩, by decide, by decide, by decide,
        by decide⟩,
    (C2_parsing_check tampered14Proof).2 rfl⟩

/-- C7 counterexample: appending a trailing byte to a validly serialized
`AggregateProof` does NOT make `AggregateProof::read` fail — the arkworks
reader consumes exactly the encoded prefix and ignores the rest, so `read`
succeeds and returns the same proof, contradicting the claim that it
returns a `Serialization` error. -/
theorem C7_counterexample :
    AggregateProof.read natCodec natCodec natCodec
        ((AggregateProof.write natCodec natCodec natCodec sampleProof).getD []
          ++ [0])
      = some sampleProof := by decide

/-- C7 (amended): deserialization re-derives `L = ⌈log2 nproofs⌉` from the
decoded `nproofs` and reads exactly `L` entries per field — so reading a
validly serialized proof followed by ANY trailing bytes succeeds and
returns the same proof, the trailing bytes being ignored (not an error). -/
theorem C7_read_ignores_trailing {TF G1 G2 : Type}
    (cTF : Codec TF) (cG1 : Codec G1) (cG2 : Codec G2)
    (hTF : cTF.Lawful) (hG1 : cG1.Lawful) (hG2 : cG2.Lawful)
    (p : AggregateProof TF G1 G2)
    (hpow : ∃ k, p.tmipp.gipa.nproofs = 2 ^ k)
    (hlo : 2 ≤ p.tmipp.gipa.nproofs)
    (hhi : p.tmipp.gipa.nproofs ≤ MAX_SRS_SIZE)
    (hab : p.tmipp.gipa.comms_ab.length = log_proofs p.tmipp.gipa.nproofs)
    (hcc : p.tmipp.gipa.comms_c.length = log_proofs p.tmipp.gipa.nproofs)
    (hzab : p.tmipp.gipa.z_ab.length = log_proofs p.tmipp.gipa.nproofs)
    (hzc : p.tmipp.gipa.z_c.length = log_proofs p.tmipp.gipa.nproofs)
    (extra : List Nat) :
    ∃ bytes, AggregateProof.write cTF cG1 cG2 p = some bytes ∧
      AggregateProof.read cTF cG1 cG2 (bytes ++ extra) = some p := by
  have h32 : p.tmipp.gipa.nproofs < 4294967296 := by
    have hmax : MAX_SRS_SIZE < 4294967296 := by norm_num [MAX_SRS_SIZE]
    omega
  exact agg_write_read hTF hG1 hG2 p hlo h32 hab hcc hzab hzc extra

/-- C7 witness: the amended statement evaluated on a concrete proof with
two trailing bytes. -/
theorem C7_witness :
    ∃ bytes,
      AggregateProof.write natCodec natCodec natCodec sampleProof
        = some bytes ∧
      AggregateProof.read natCodec natCodec natCodec (bytes ++ [7, 9])
        = some sampleProof :=
  C7_read_ignores_trailing natCodec natCodec natCodec
    natCodec_lawful natCodec_lawful natCodec_lawful sampleProof
    ⟨1, rfl⟩ (by decide) (by decide)
    (by decide) (by decide) (by decide) (by decide) [7, 9]

/-- C5: the pairing product checks the lengths first (returning
`InvalidIPVectorLength` before any pairing computation) and otherwise
returns the final exponentiation of the multi-Miller loop, with a `None`
final exponentiation reported as `InvalidPairing`. -/
theorem C5_pairing_product {G1 G2 GT MT : Type}
    (E : PairingEngine G1 G2 GT MT) (A : List G1) (B : List G2) :
    (A.length ≠ B.length →
      ip_pairing E A B = .error .invalidIPVectorLength)
    ∧ (A.length = B.length →
        (E.finalExp (E.multiMiller (A.zip B)) = none →
          ip_pairing E A B = .error .invalidPairing)
        ∧ (∀ g, E.finalExp (E.multiMiller (A.zip B)) = some g →
            ip_pairing E A B = .ok g)) := by
  refine ⟨fun hne => ?_, fun heq => ⟨fun hnone => ?_, fun g hg => ?_⟩⟩
  · simp [ip_pairing, pairing_miller_affine, hne]
  · simp [ip_pairing, pairing_miller_affine, heq, hnone]
  · simp [ip_pairing, pairing_miller_affine, heq, hg]

/-- C5 witness: the three behaviours evaluated on concrete backends. -/
theorem C5_witness :
    ip_pairing natEngine [1] [] = .error .invalidIPVectorLength ∧
    ip_pairing stuckEngine [1] [2] = .error .invalidPairing ∧
    ip_pairing natEngine [2] [3] = .ok 6 :=
  ⟨(C5_pairing_product natEngine [1] []).1 (by decide),
    ((C5_pairing_product stuckEngine [1] [2]).2 rfl).1 rfl,
    ((C5_pairing_product natEngine [2] [3]).2 rfl).2 6 rfl⟩

/-- C6: contrary to the spec's error taxonomy, `ip::multiexponentiation`
returns `InvalidPairing` on a length mismatch and maps an MSM failure to
`InvalidIPVectorLength` — the two error kinds are swapped in the source
(compare `pairing_miller_affine`, which does use `InvalidIPVectorLength`
for its length mismatch). -/
theorem C6_msm_error_kinds_swapped {F G : Type}
    (msmFn : List G → List F → Option G)
    (left : List G) (right : List F) :
    (left.length ≠ right.length →
      multiexponentiation msmFn left right = .error .invalidPairing)
    ∧ (left.length = right.length → msmFn left right = none →
      multiexponentiation msmFn left right = .error .invalidIPVectorLength) := by
  refine ⟨fun hne => ?_, fun heq hnone => ?_⟩
  · simp [multiexponentiation, hne]
  · simp [multiexponentiation, heq, hnone]

/-- C6 witness: the swapped error kinds evaluated on concrete inputs. -/
theorem C6_witness :
    multiexponentiation natMsm [1] [] = .error .invalidPairing ∧
    multiexponentiation failMsm [1] [2] = .error .invalidIPVectorLength :=
  ⟨(C6_msm_error_kinds_swapped natMsm [1] []).1 (by decide),
    (C6_msm_error_kinds_swapped failMsm [1] [2]).2 rfl rfl⟩

/-- C9: `GipaProof` deserialization rejects every stream whose leading
`u32` is below `2`, every successfully parsed proof has `nproofs ≥ 2`, and
no power-of-two or `MAX_SRS_SIZE` check happens at deserialization time:
a stream with `nproofs = 2^20 + 1` (not a power of two, above the bound)
parses successfully. -/
theorem C9_deserialize_nproofs_guard {TF G1 G2 : Type}
    (cTF : Codec TF) (cG1 : Codec G1) (cG2 : Codec G2) :
    (∀ (b0 b1 b2 b3 : Nat) (rest : List Nat),
        b0 + 256 * b1 + 65536 * b2 + 16777216 * b3 < 2 →
        GipaProof.deserialize cTF cG1 cG2 (b0 :: b1 :: b2 :: b3 :: rest)
          = none)
    ∧ (∀ (s : List Nat) (q : GipaProof TF G1 G2) (rest : List Nat),
        GipaProof.deserialize cTF cG1 cG2 s = some (q, rest) →
        2 ≤ q.nproofs)
    ∧ (GipaProof.deserialize natCodec natCodec natCodec overSizedBytes
          = some (overSizedGipa, [])
        ∧ (¬ ∃ k, overSizedGipa.nproofs = 2 ^ k)
        ∧ MAX_SRS_SIZE < overSizedGipa.nproofs) := by
  refine ⟨?_, ?_, ?_, ?_, ?_⟩
  · intro b0 b1 b2 b3 rest h
    simp [GipaProof.deserialize, u32dec, h]
  · intro s q rest h
    obtain ⟨qn, qca, qcc, qza, qzc, qa, qb, qc, qvk, qwk⟩ := q
    unfold GipaProof.deserialize at h
    repeat' split at h
    all_goals try exact Option.noConfusion h
    injection h with hpair
    injection hpair with hgipa hrest
    injection hgipa
    show 2 ≤ qn
    omega
  · decide
  · intro hex
    exact absurd ((is_power_of_two_iff _).mpr hex) (by decide)
  · decide

/-- C9 witness: the guards evaluated on concrete streams. -/
theorem C9_witness :
    GipaProof.deserialize natCodec natCodec natCodec [1, 0, 0, 0]
      = (none : Option (GipaProof Nat Nat Nat × List Nat)) ∧
    2 ≤ overSizedGipa.nproofs :=
  ⟨(C9_deserialize_nproofs_guard natCodec natCodec natCodec).1
      1 0 0 0 [] (by decide),
    (C9_deserialize_nproofs_guard natCodec natCodec natCodec).2.1
      overSizedBytes overSizedGipa [] (by decide)⟩

/-- The serializer embedded from the source is `serializeWithL` at the
modelled level count. -/
theorem serialize_eq_serializeWithL {TF G1 G2 : Type}
    (cTF : Codec TF) (cG1 : Codec G1) (cG2 : Codec G2)
    (p : GipaProof TF G1 G2) :
    GipaProof.serialize cTF cG1 cG2 p =
      GipaProof.serializeWithL cTF cG1 cG2 (log_proofs p.nproofs) p := rfl

/-- C10 counterexample: the claim indexes the assertions by the exact
`⌈log2 nproofs⌉`, but at `nproofs = 2^24 + 1` the program's level count
is `24`: the `as f32` cast rounds `2^24 + 1` to `2^24` (ties to even)
and `log2` of a power of two is exact, while `⌈log2 (2^24+1)⌉ = 25`.
Running the source's serializer at the program's count, the proof whose
vectors all have the claim's length `25 ≥ 1` panics — refuting the
claim's totality half — and a proof whose vectors have length `24 ≠ 25`
serializes successfully — refuting its panic half. -/
theorem C10_counterexample :
    log_proofs_f32 16777217 = some 24 ∧
    log_proofs 16777217 = 25 ∧
    GipaProof.serializeWithL natCodec natCodec natCodec 24 overflowGipa25
      = none ∧
    (∃ bytes, GipaProof.serializeWithL natCodec natCodec natCodec 24
      overflowGipa24 = some bytes) := by
  refine ⟨by decide, by decide, by decide, ?_⟩
  cases hs : GipaProof.serializeWithL natCodec natCodec natCodec 24
      overflowGipa24 with
  | some bs => exact ⟨bs, rfl⟩
  | none => exact absurd hs (by decide)

/-- C10 (amended): for `nproofs` within `MAX_SRS_SIZE` — the range the
protocol admits, on which the source's `(nproofs as f32).log2().ceil()`
equals the exact `⌈log2 nproofs⌉` — serializing a `GipaProof` whose
vector lengths disagree with that count hits an `assert_eq!` and panics
(also through `AggregateProof::write`, which therefore aborts rather
than returning a `Serialization` error); when all four lengths equal the
count and it is `≥ 1`, serialization succeeds and the first-entry
indexing inside `serialized_size` cannot fail.  (Outside that range the
claim's exact-`⌈log2⌉` indexing diverges from the program's `f32`
computation; see `log_proofs_f32`.) -/
theorem C10_serialize_asserts {TF G1 G2 : Type}
    (cTF : Codec TF) (cG1 : Codec G1) (cG2 : Codec G2) :
    (∀ p : GipaProof TF G1 G2,
        p.nproofs ≤ MAX_SRS_SIZE →
        ¬ (p.comms_ab.length = log_proofs p.nproofs ∧
           p.comms_c.length = log_proofs p.nproofs ∧
           p.z_ab.length = log_proofs p.nproofs ∧
           p.z_c.length = log_proofs p.nproofs) →
        GipaProof.serialize cTF cG1 cG2 p = none)
    ∧ (∀ q : AggregateProof TF G1 G2,
        q.tmipp.gipa.nproofs ≤ MAX_SRS_SIZE →
        ¬ (q.tmipp.gipa.comms_ab.length = log_proofs q.tmipp.gipa.nproofs ∧
           q.tmipp.gipa.comms_c.length = log_proofs q.tmipp.gipa.nproofs ∧
           q.tmipp.gipa.z_ab.length = log_proofs q.tmipp.gipa.nproofs ∧
           q.tmipp.gipa.z_c.length = log_proofs q.tmipp.gipa.nproofs) →
        AggregateProof.write cTF cG1 cG2 q = none)
    ∧ (∀ p : GipaProof TF G1 G2,
        p.nproofs ≤ MAX_SRS_SIZE →
        p.comms_ab.length = log_proofs p.nproofs →
        p.comms_c.length = log_proofs p.nproofs →
        p.z_ab.length = log_proofs p.nproofs →
        p.z_c.length = log_proofs p.nproofs →
        1 ≤ log_proofs p.nproofs →
        (∃ bytes, GipaProof.serialize cTF cG1 cG2 p = some bytes) ∧
        (∃ sz, GipaProof.serializedSize cTF cG1 cG2 p = some sz)) := by
  have key : ∀ p : GipaProof TF G1 G2,
      ¬ (p.comms_ab.length = log_proofs p.nproofs ∧
         p.comms_c.length = log_proofs p.nproofs ∧
         p.z_ab.length = log_proofs p.nproofs ∧
         p.z_c.length = log_proofs p.nproofs) →
      GipaProof.serialize cTF cG1 cG2 p = none := by
    intro p hlen
    unfold GipaProof.serialize
    rw [if_neg hlen]
  refine ⟨fun p _ => key p, ?_, ?_⟩
  · intro q _ hlen
    unfold AggregateProof.write
    rw [key q.tmipp.gipa hlen]
  · intro p _ h1 h2 h3 h4 hL
    constructor
    · cases hs : GipaProof.serialize cTF cG1 cG2 p with
      | some bs => exact ⟨bs, rfl⟩
      | none =>
        exfalso
        unfold GipaProof.serialize at hs
        rw [if_pos ⟨h1, h2, h3, h4⟩] at hs
        exact Option.noConfusion hs
    · have hca := List.exists_cons_of_ne_nil
        (List.length_pos.mp (show 0 < p.comms_ab.length by omega))
      have hcc := List.exists_cons_of_ne_nil
        (List.length_pos.mp (show 0 < p.comms_c.length by omega))
      have hza := List.exists_cons_of_ne_nil
        (List.length_pos.mp (show 0 < p.z_ab.length by omega))
      have hzc := List.exists_cons_of_ne_nil
        (List.length_pos.mp (show 0 < p.z_c.length by omega))
      obtain ⟨ca, cat, hcaeq⟩ := hca
      obtain ⟨cc, cct, hcceq⟩ := hcc
      obtain ⟨za, zat, hzaeq⟩ := hza
      obtain ⟨zc, zct, hzceq⟩ := hzc
      unfold GipaProof.serializedSize
      rw [hcaeq, hcceq, hzaeq, hzceq]
      exact ⟨_, rfl⟩

/-- C10 witness: a proof with an empty `comms_ab` fails to serialize; the
well-formed sample serializes and has a defined `serialized_size`. -/
theorem C10_witness :
    GipaProof.serialize natCodec natCodec natCodec
        { sampleGipa with comms_ab := [] } = none ∧
    (∃ bytes,
      GipaProof.serialize natCodec natCodec natCodec sampleGipa
        = some bytes) ∧
    (∃ sz,
      GipaProof.serializedSize natCodec natCodec natCodec sampleGipa
        = some sz) :=
  ⟨(C10_serialize_asserts natCodec natCodec natCodec).1 _ (by decide)
      (by decide),
    ((C10_serialize_asserts natCodec natCodec natCodec).2.2 sampleGipa
      (by decide) (by decide) (by decide) (by decide) (by decide)
      (by decide)).1,
    ((C10_serialize_asserts natCodec natCodec natCodec).2.2 sampleGipa
      (by decide) (by decide) (by decide) (by decide) (by decide)
      (by decide)).2⟩

theorem zipWith_scale_add_comm {F G : Type} [SMul F G] [AddCommMonoid G]
    (x : F) : ∀ (A B : List G),
    List.zipWith (fun lv rv => x • rv + lv) A B
      = List.zipWith (fun lv rv => lv + x • rv) A B
  | [], _ => rfl
  | _ :: _, [] => rfl
  | a :: A, b :: B => by
    simp only [List.zipWith_cons_cons, zipWith_scale_add_comm x A B,
      add_comm (x • b) a]

/-- `Key::compress` on keys whose four vectors share one length `n`
computes the entrywise `scale • right + left` on both halves. -/
theorem compress_eq_zipWith {F G : Type} [SMul F G] [Add G]
    (l r : Key G) (x : F) (n : Nat)
    (hla : l.a.length = n) (hlb : l.b.length = n)
    (hra : r.a.length = n) (hrb : r.b.length = n) :
    Key.compress l r x =
      .ok { a := List.zipWith (fun lv rv => x • rv + lv) l.a r.a,
            b := List.zipWith (fun lv rv => x • rv + lv) l.b r.b } := by
  simp only [Key.compress]
  rw [if_neg (by omega : ¬ l.a.length ≠ r.a.length)]
  simp only [Except.ok.injEq, Key.mk.injEq]
  constructor
  · apply List.ext_getElem
    · simp [List.length_zip, hla, hlb, hra, hrb]
    · intro i h1 h2
      simp [List.getElem_map, List.getElem_zip, List.getElem_zipWith]
  · apply List.ext_getElem
    · simp [List.length_zip, hla, hlb, hra, hrb]
    · intro i h1 h2
      simp [List.getElem_map, List.getElem_zip, List.getElem_zipWith]

/-- C4: splitting an even-length key at its midpoint and compressing the
halves with a scalar `x` succeeds and yields the key of half the length
whose `i`-th entry is `left[i] + x • right[i]` on both halves; compressing
keys with different `a`-lengths fails with `InvalidKeyLength`. -/
theorem C4_key_halving {F G : Type} [SMul F G] [AddCommMonoid G] :
    (∀ (m : Nat) (k : Key G) (x : F) (l r : Key G),
        k.a.length = 2 * m → k.b.length = 2 * m →
        k.split m = some (l, r) →
        ∃ c, Key.compress l r x = .ok c ∧
          c.a.length = m ∧ c.b.length = m ∧
          c.a = List.zipWith (fun lv rv => lv + x • rv) l.a r.a ∧
          c.b = List.zipWith (fun lv rv => lv + x • rv) l.b r.b)
    ∧ (∀ (left right : Key G) (x : F),
        left.a.length ≠ right.a.length →
        Key.compress left right x = .error .invalidKeyLength) := by
  constructor
  · intro m k x l r hka hkb hsplit
    simp only [Key.split] at hsplit
    rw [if_pos (⟨by omega, by omega⟩ : m ≤ k.a.length ∧ m ≤ k.b.length)]
      at hsplit
    injection hsplit with hpair
    injection hpair with hl hr
    have hla : l.a.length = m := by
      rw [← hl]; simp; omega
    have hlb : l.b.length = m := by
      rw [← hl]; simp; omega
    have hra : r.a.length = m := by
      rw [← hr]; simp; omega
    have hrb : r.b.length = m := by
      rw [← hr]; simp; omega
    refine ⟨_, compress_eq_zipWith l r x m hla hlb hra hrb, ?_, ?_, ?_, ?_⟩
    · simp [List.length_zipWith, hla, hra]
    · simp [List.length_zipWith, hlb, hrb]
    · exact zipWith_scale_add_comm x l.a r.a
    · exact zipWith_scale_add_comm x l.b r.b
  · intro left right x hne
    simp only [Key.compress]
    rw [if_pos hne]

/-- C4 witness: the halving law evaluated on a concrete length-4 key. -/
theorem C4_witness :
    (∃ c, Key.compress (⟨[1, 2], [3, 4]⟩ : Key Nat) ⟨[5, 6], [7, 8]⟩
        (10 : Nat) = .ok c ∧
      c.a.length = 2 ∧ c.b.length = 2 ∧
      c.a = List.zipWith (fun lv rv => lv + (10 : Nat) • rv) [1, 2] [5, 6] ∧
      c.b = List.zipWith (fun lv rv => lv + (10 : Nat) • rv) [3, 4] [7, 8]) ∧
    Key.compress (⟨[1], [2]⟩ : Key Nat) ⟨[3, 4], [5, 6]⟩ (10 : Nat)
      = .error .invalidKeyLength :=
  ⟨((@C4_key_halving Nat Nat _ _).1 2 ⟨[1, 2, 5, 6], [3, 4, 7, 8]⟩ 10
      ⟨[1, 2], [3, 4]⟩ ⟨[5, 6], [7, 8]⟩ (by decide) (by decide) (by decide)),
    (@C4_key_halving Nat Nat _ _).2 ⟨[1], [2]⟩ ⟨[3, 4], [5, 6]⟩ 10 (by decide)⟩

/-- C8: `scale`, `split` and `compress` all preserve the key invariant
`|a| = |b|` (expressed through the source's own structural check
`has_correct_len`). -/
theorem C8_key_invariant {F G : Type} [SMul F G] [Add G] :
    (∀ (k : Key G) (s : List F) (k2 : Key G),
        k.a.length = k.b.length → Key.scale k s = .ok k2 →
        k2.has_correct_len k.a.length = true)
    ∧ (∀ (k : Key G) (n : Nat),
        k.a.length = k.b.length → n ≤ k.a.length →
        ∃ l r, k.split n = some (l, r) ∧
          l.has_correct_len n = true ∧
          r.has_correct_len (k.a.length - n) = true)
    ∧ (∀ (left right : Key G) (x : F) (c : Key G),
        left.a.length = left.b.length → right.a.length = right.b.length →
        left.a.length = right.a.length →
        Key.compress left right x = .ok c →
        c.has_correct_len left.a.length = true) := by
  refine ⟨?_, ?_, ?_⟩
  · intro k s k2 hinv hok
    simp only [Key.scale] at hok
    by_cases hg : k.a.length ≠ s.length
    · rw [if_pos hg] at hok
      exact absurd hok (by simp)
    · rw [if_neg hg] at hok
      injection hok with hk2
      rw [← hk2]
      simp [Key.has_correct_len, List.length_zip, hinv]
      omega
  · intro k n hinv hn
    refine ⟨⟨k.a.take n, k.b.take n⟩, ⟨k.a.drop n, k.b.drop n⟩, ?_, ?_, ?_⟩
    · simp only [Key.split]
      rw [if_pos (⟨hn, by omega⟩ : n ≤ k.a.length ∧ n ≤ k.b.length)]
    · simp [Key.has_correct_len]
      omega
    · simp [Key.has_correct_len]
      omega
  · intro left right x c hlinv hrinv heq hok
    rw [compress_eq_zipWith left right x left.a.length rfl (by omega)
      (by omega) (by omega)] at hok
    injection hok with hc
    rw [← hc]
    simp [Key.has_correct_len, List.length_zipWith]
    omega

/-- C8 witness: the three invariant preservations on concrete keys. -/
theorem C8_witness :
    Key.scale (⟨[1, 2], [3, 4]⟩ : Key Nat) ([5, 6] : List Nat)
        = .ok ⟨[5, 12], [15, 24]⟩ ∧
    Key.has_correct_len (⟨[5, 12], [15, 24]⟩ : Key Nat) 2 = true ∧
    (∃ l r, Key.split (⟨[1, 2], [3, 4]⟩ : Key Nat) 1 = some (l, r) ∧
      l.has_correct_len 1 = true ∧ r.has_correct_len 1 = true) ∧
    Key.compress (⟨[1, 2], [3, 4]⟩ : Key Nat) ⟨[5, 6], [7, 8]⟩ (9 : Nat)
        = .ok ⟨[46, 56], [66, 76]⟩ ∧
    Key.has_correct_len (⟨[46, 56], [66, 76]⟩ : Key Nat) 2 = true := by
  have hs : Key.scale (⟨[1, 2], [3, 4]⟩ : Key Nat) ([5, 6] : List Nat)
      = .ok ⟨[5, 12], [15, 24]⟩ := by decide
  have hc : Key.compress (⟨[1, 2], [3, 4]⟩ : Key Nat) ⟨[5, 6], [7, 8]⟩
      (9 : Nat) = .ok ⟨[46, 56], [66, 76]⟩ := by decide
  exact ⟨hs, (@C8_key_invariant Nat Nat _ _).1 ⟨[1, 2], [3, 4]⟩ [5, 6] _ rfl hs,
    (@C8_key_invariant Nat Nat _ _).2.1 ⟨[1, 2], [3, 4]⟩ 1 rfl (by decide),
    hc, (@C8_key_invariant Nat Nat _ _).2.2 ⟨[1, 2], [3, 4]⟩ ⟨[5, 6], [7, 8]⟩ 9 _
      rfl rfl rfl hc⟩

/-- Under the backend contract, `ip::pairing` on equal-length vectors
returns the product of pairings of the zipped entries. -/
theorem ip_pairing_ok {G1 G2 GT MT : Type} [CommMonoid GT]
    {E : PairingEngine G1 G2 GT MT} (hE : E.MillerSpec)
    (A : List G1) (B : List G2) (h : A.length = B.length) :
    ip_pairing E A B = .ok ((A.zip B).map fun p => E.e p.1 p.2).prod := by
  simp [ip_pairing, pairing_miller_affine, h, hE (A.zip B)]

/-- `ip::pairing` succeeds only on equal-length vectors. -/
theorem ip_pairing_ok_lengths {G1 G2 GT MT : Type}
    (E : PairingEngine G1 G2 GT MT) {A : List G1} {B : List G2} {g : GT}
    (h : ip_pairing E A B = .ok g) : A.length = B.length := by
  by_cases hl : A.length = B.length
  · exact hl
  · exfalso
    simp [ip_pairing, pairing_miller_affine, hl] at h

/-- A product over a zipped pair of lists of one length `n` is the
`Fin n`-indexed product of the entrywise images. -/
theorem zip_map_prod_eq_finprod {α β γ : Type} [CommMonoid γ]
    (f : α → β → γ) (A : List α) (B : List β) (n : Nat)
    (hA : A.length = n) (hB : B.length = n) :
    ((A.zip B).map fun p => f p.1 p.2).prod
      = ∏ i : Fin n,
          f (A.get (Fin.cast hA.symm i)) (B.get (Fin.cast hB.symm i)) := by
  rw [← List.prod_ofFn]
  congr 1
  apply List.ext_getElem
  · simp [hA, hB]
  · intro i h1 h2
    simp [List.getElem_map, List.getElem_zip, List.getElem_ofFn]

/-- C3: on vectors of one common length `n`, `single_g1` returns
`(∏ e(Aᵢ, vkey.aᵢ), ∏ e(Aᵢ, vkey.bᵢ))` and `pair` returns
`(∏ e(Aᵢ, vkey.aᵢ)·e(wkey.aᵢ, Bᵢ), ∏ e(Aᵢ, vkey.bᵢ)·e(wkey.bᵢ, Bᵢ))`;
each function fails when any participating pair of vector lengths
mismatches. -/
theorem C3_pair_commitments {G1 G2 GT MT : Type} [CommMonoid GT]
    (E : PairingEngine G1 G2 GT MT) (hE : E.MillerSpec) :
    (∀ (n : Nat) (vkey : Key G2) (A : List G1)
        (hA : A.length = n) (hva : vkey.a.length = n)
        (hvb : vkey.b.length = n),
        single_g1 E vkey A = .ok
          { T := ∏ i : Fin n, E.e (A.get (Fin.cast hA.symm i))
                   (vkey.a.get (Fin.cast hva.symm i)),
            U := ∏ i : Fin n, E.e (A.get (Fin.cast hA.symm i))
                   (vkey.b.get (Fin.cast hvb.symm i)) })
    ∧ (∀ (n : Nat) (vkey : Key G2) (wkey : Key G1)
        (A : List G1) (B : List G2)
        (hA : A.length = n) (hB : B.length = n)
        (hva : vkey.a.length = n) (hvb : vkey.b.length = n)
        (hwa : wkey.a.length = n) (hwb : wkey.b.length = n),
        pair E vkey wkey A B = .ok
          { T := ∏ i : Fin n,
              E.e (A.get (Fin.cast hA.symm i))
                  (vkey.a.get (Fin.cast hva.symm i)) *
              E.e (wkey.a.get (Fin.cast hwa.symm i))
                  (B.get (Fin.cast hB.symm i)),
            U := ∏ i : Fin n,
              E.e (A.get (Fin.cast hA.symm i))
                  (vkey.b.get (Fin.cast hvb.symm i)) *
              E.e (wkey.b.get (Fin.cast hwb.symm i))
                  (B.get (Fin.cast hB.symm i)) })
    ∧ (∀ (vkey : Key G2) (A : List G1),
        A.length ≠ vkey.a.length ∨ A.length ≠ vkey.b.length →
        ∃ err, single_g1 E vkey A = .error err)
    ∧ (∀ (vkey : Key G2) (wkey : Key G1) (A : List G1) (B : List G2),
        A.length ≠ vkey.a.length ∨ wkey.a.length ≠ B.length ∨
        A.length ≠ vkey.b.length ∨ wkey.b.length ≠ B.length →
        ∃ err, pair E vkey wkey A B = .error err) := by
  refine ⟨?_, ?_, ?_, ?_⟩
  · intro n vkey A hA hva hvb
    rw [single_g1, ip_pairing_ok hE A vkey.a (by omega),
      ip_pairing_ok hE A vkey.b (by omega),
      zip_map_prod_eq_finprod E.e A vkey.a n hA hva,
      zip_map_prod_eq_finprod E.e A vkey.b n hA hvb]
  · intro n vkey wkey A B hA hB hva hvb hwa hwb
    have hpair : pair E vkey wkey A B = .ok
        { T := ((A.zip vkey.a).map fun p => E.e p.1 p.2).prod *
            ((wkey.a.zip B).map fun p => E.e p.1 p.2).prod,
          U := ((A.zip vkey.b).map fun p => E.e p.1 p.2).prod *
            ((wkey.b.zip B).map fun p => E.e p.1 p.2).prod } := by
      rw [pair, ip_pairing_ok hE A vkey.a (by omega),
        ip_pairing_ok hE wkey.a B (by omega),
        ip_pairing_ok hE A vkey.b (by omega),
        ip_pairing_ok hE wkey.b B (by omega)]
    rw [hpair, zip_map_prod_eq_finprod E.e A vkey.a n hA hva,
      zip_map_prod_eq_finprod E.e wkey.a B n hwa hB,
      zip_map_prod_eq_finprod E.e A vkey.b n hA hvb,
      zip_map_prod_eq_finprod E.e wkey.b B n hwb hB,
      ← Finset.prod_mul_distrib, ← Finset.prod_mul_distrib]
  · intro vkey A hmis
    cases h1 : ip_pairing E A vkey.a with
    | error e1 =>
      refine ⟨e1, ?_⟩
      rw [single_g1, h1]
      cases ip_pairing E A vkey.b <;> rfl
    | ok t =>
      cases h2 : ip_pairing E A vkey.b with
      | error e2 => exact ⟨e2, by rw [single_g1, h1, h2]⟩
      | ok u =>
        exfalso
        rcases hmis with h | h
        · exact h (ip_pairing_ok_lengths E h1)
        · exact h (ip_pairing_ok_lengths E h2)
  · intro vkey wkey A B hmis
    cases h1 : ip_pairing E A vkey.a with
    | error e1 =>
      refine ⟨e1, ?_⟩
      rw [pair, h1]
      cases ip_pairing E wkey.a B <;> cases ip_pairing E A vkey.b <;>
        cases ip_pairing E wkey.b B <;> rfl
    | ok t1 =>
      cases h2 : ip_pairing E wkey.a B with
      | error e2 =>
        refine ⟨e2, ?_⟩
        rw [pair, h1, h2]
        cases ip_pairing E A vkey.b <;> cases ip_pairing E wkey.b B <;> rfl
      | ok t2 =>
        cases h3 : ip_pairing E A vkey.b with
        | error e3 =>
          refine ⟨e3, ?_⟩
          rw [pair, h1, h2, h3]
          cases ip_pairing E wkey.b B <;> rfl
        | ok u1 =>
          cases h4 : ip_pairing E wkey.b B with
          | error e4 => exact ⟨e4, by rw [pair, h1, h2, h3, h4]⟩
          | ok u2 =>
            exfalso
            rcases hmis with h | h | h | h
            · exact h (ip_pairing_ok_lengths E h1)
            · exact h (ip_pairing_ok_lengths E h2)
            · exact h (ip_pairing_ok_lengths E h3)
            · exact h (ip_pairing_ok_lengths E h4)

/-- C3 witness: both commitments and both failure modes evaluated on the
concrete `Nat` backend. -/
theorem C3_witness :
    single_g1 natEngine ⟨[1, 2], [3, 4]⟩ [5, 6] = .ok ⟨60, 360⟩ ∧
    pair natEngine ⟨[1, 2], [3, 4]⟩ ⟨[5, 6], [7, 8]⟩ [9, 10] [11, 12]
      = .ok ⟨712800, 7983360⟩ ∧
    (∃ err, single_g1 natEngine ⟨[1], [2, 3]⟩ [4] = .error err) ∧
    (∃ err, pair natEngine ⟨[1], [2]⟩ ⟨[3], [4]⟩ [5] [6, 7] = .error err) := by
  have h := C3_pair_commitments natEngine (fun l => rfl)
  refine ⟨?_, ?_, ?_, ?_⟩
  · exact (h.1 2 ⟨[1, 2], [3, 4]⟩ [5, 6] rfl rfl rfl).trans (by decide)
  · exact (h.2.1 2 ⟨[1, 2], [3, 4]⟩ ⟨[5, 6], [7, 8]⟩ [9, 10] [11, 12]
      rfl rfl rfl rfl rfl rfl).trans (by decide)
  · exact h.2.2.1 ⟨[1], [2, 3]⟩ [4] (Or.inr (by decide))
  · exact h.2.2.2 ⟨[1], [2]⟩ ⟨[3], [4]⟩ [5] [6, 7] (Or.inr (Or.inl (by decide)))

end Groth16Agg
